import Mathlib

/-!
Verification of the rumpsteak-aura choreography core: the grammar composer
(`src/choreography/src/compiler/grammar.rs`), the extension registry
(`src/choreography/src/extensions.rs`), and the projection engine's branch-merge
rule (spec-modelled; the projection source is not part of the visible sources).

Text is modelled as `List Char` (Rust `String`/`&str`; all texts involved are
LF-only ASCII, so byte indices and `char` indices coincide and no `\r\n`
normalisation arises). Fallible Rust functions returning `Result` become
`Except`. The registry's `HashMap` is modelled as an association list with
replace-on-insert semantics; wherever the Rust code iterates over `HashMap`
values, the (unspecified) iteration order is taken as an explicit parameter.
-/


set_option maxRecDepth 16384

/-- Convert a string literal to the `List Char` text representation. -/
def txt (s : String) : List Char := s.toList

/-- Whitespace test used by `str::trim` (ASCII subset; the texts involved are ASCII). -/
def isWsChar (c : Char) : Bool := c = ' ' || c = '\t' || c = '\n' || c = '\r'

/-- Does `p` occur at the start of `s`? (Rust `str::starts_with`.) -/
def startsWithL : List Char → List Char → Bool
  | [], _ => true
  | _ :: _, [] => false
  | p :: ps, c :: cs => p = c && startsWithL ps cs

/-- Does `p` occur at the end of `s`? (Rust `str::ends_with`.) -/
def endsWithL (p s : List Char) : Bool := startsWithL p.reverse s.reverse

/-- Does `p` occur as a contiguous substring of `s`? (Rust `str::contains`.) -/
def containsSub (p : List Char) : List Char → Bool
  | [] => startsWithL p []
  | c :: cs => startsWithL p (c :: cs) || containsSub p cs

/-- Index of the first occurrence of `p` in `s`, if any. (Rust `str::find`.) -/
def findSub (p : List Char) : List Char → Option Nat
  | [] => if startsWithL p [] then some 0 else none
  | c :: cs => if startsWithL p (c :: cs) then some 0 else (findSub p cs).map (· + 1)

/-- The prefix of `s` before the first occurrence of `p` (all of `s` when `p` is
absent). This is Rust `s.split(p).next().unwrap()`. -/
def takeUntilSub (p s : List Char) : List Char :=
  match findSub p s with
  | some i => s.take i
  | none => s

/-- Strip leading and trailing whitespace. (Rust `str::trim`.) -/
def trimL (s : List Char) : List Char :=
  ((s.dropWhile isWsChar).reverse.dropWhile isWsChar).reverse

/-- Split on every newline character; always returns at least one (possibly empty) piece. -/
def splitNl : List Char → List (List Char)
  | [] => [[]]
  | c :: cs =>
    if c = '\n' then [] :: splitNl cs
    else
      match splitNl cs with
      | [] => [[c]]
      | h :: t => (c :: h) :: t

/-- Drop a trailing empty piece, if present. -/
def dropLastEmpty (l : List (List Char)) : List (List Char) :=
  match l.getLast? with
  | some [] => l.dropLast
  | _ => l

/-- The lines of a text: split on newlines, a final line ending being optional.
(Rust `str::lines` on LF-only text.) -/
def linesL (s : List Char) : List (List Char) := dropLastEmpty (splitNl s)

/-- Join pieces with a separator. (Rust `[String]::join`.) -/
def joinSep (sep : List Char) : List (List Char) → List Char
  | [] => []
  | [x] => x
  | x :: y :: xs => x ++ sep ++ joinSep sep (y :: xs)

/-! ## The extension model (`extensions.rs`)

A `GrammarExtension` trait object is fully described, for the purposes of
grammar composition and registration, by the return values of its four methods
`extension_id`, `grammar_rules`, `statement_rules` and `priority`. -/

/-- The data of a registered `GrammarExtension` (trait in `extensions.rs`). -/
structure GrammarExt where
  extension_id : List Char
  grammar_rules : List Char
  statement_rules : List (List Char)
  priority : Nat
deriving DecidableEq

/-- The error type `GrammarCompositionError` of `grammar.rs`. -/
inductive GrammarCompositionError where
  | InvalidBaseGrammar (msg : List Char)
  | DuplicateRule (name : List Char)
  | SyntaxError (msg : List Char)
  | ExtensionConflict (msg : List Char)
  | IoError (msg : List Char)
deriving DecidableEq

/-- Insert one element into a list already sorted by descending priority,
after every element of priority ≥ its own (the behaviour a stable sort gives
the element relative to earlier ones). -/
def insertPrio (e : GrammarExt) : List GrammarExt → List GrammarExt
  | [] => [e]
  | x :: xs => if e.priority ≤ x.priority then x :: insertPrio e xs else e :: x :: xs

/-- Stable sort by descending `priority()`: the model of
`extensions.sort_by_key(|b| Reverse(b.priority()))` in `compose_grammar`
(Rust's `sort_by_key` is a stable sort). -/
def sortByPrioDesc (l : List GrammarExt) : List GrammarExt :=
  l.foldl (fun acc e => insertPrio e acc) []

/-- `ExtensionRegistry::compose_grammar`: append, to `base_grammar`, a newline
followed by each registered extension's rule text, visiting extensions in
descending-priority order. `order` is the iteration order of the registry's
`grammar_extensions: HashMap` values, which Rust leaves unspecified. -/
def compose_grammar (order : List GrammarExt) (base_grammar : List Char) : List Char :=
  base_grammar ++ (sortByPrioDesc order).foldl (fun acc e => acc ++ '\n' :: e.grammar_rules) []

/-- `GrammarComposer::extract_extension_statements`: the trimmed text before the
first `=` of every line of the extension rules whose trimmed form ends with
`_stmt = {`. (The Rust function wraps the vector in `Ok`; it cannot fail.) -/
def extract_extension_statements (extension_rules : List Char) : List (List Char) :=
  (linesL extension_rules).filterMap (fun line =>
    let t := trimL line
    if containsSub (txt "=") t && endsWithL (txt "_stmt = \x7b") t then
      some (trimL (takeUntilSub (txt "=") t))
    else none)

/-- `GrammarComposer::inject_extension_rules`: splice the extracted statement
rule names, joined by alternation, in front of the closing parenthesis of the
`send_stmt | broadcast_stmt` alternation, then append `// Extension Rules`
and the extension rule text. -/
def inject_extension_rules (base_grammar extension_rules : List Char) :
    Except GrammarCompositionError (List Char) :=
  match findSub (txt "annotated_stmt = \x7b") base_grammar with
  | none => .error (.InvalidBaseGrammar (txt "Could not find annotated_stmt rule"))
  | some _statement_rule_start =>
    match findSub (txt "annotation* ~ (send_stmt | broadcast_stmt") base_grammar with
    | none => .error (.InvalidBaseGrammar (txt "Could not find statement alternatives"))
    | some alternatives_start =>
      match findSub (txt ")") (base_grammar.drop alternatives_start) with
      | none => .error (.InvalidBaseGrammar (txt "Could not find end of statement alternatives"))
      | some k =>
        let alternatives_end := k + alternatives_start
        let extension_statements := extract_extension_statements extension_rules
        let spliced :=
          if extension_statements.isEmpty then base_grammar
          else
            base_grammar.take alternatives_end ++ txt " | " ++
              joinSep (txt " | ") extension_statements ++ base_grammar.drop alternatives_end
        .ok (spliced ++ '\n' :: txt "// Extension Rules\n" ++ extension_rules)

/-- The four fixed substrings `validate_base_grammar` requires of the base grammar. -/
def required_rules : List (List Char) :=
  [txt "annotated_stmt = \x7b", txt "annotation* ~", txt "send_stmt", txt "broadcast_stmt"]

/-- The loop body of `GrammarComposer::validate_base_grammar`. -/
def validate_base_aux (grammar : List Char) :
    List (List Char) → Except GrammarCompositionError Unit
  | [] => .ok ()
  | r :: rs =>
    if containsSub r grammar then validate_base_aux grammar rs
    else .error (.InvalidBaseGrammar (txt "Missing required rule: " ++ r))

/-- `GrammarComposer::validate_base_grammar`: every required marker must occur. -/
def validate_base_grammar (grammar : List Char) : Except GrammarCompositionError Unit :=
  validate_base_aux grammar required_rules

/-- The rule name a single line contributes to the duplicate check of
`validate_composed_grammar`: for a trimmed line containing ` = {` and not
starting with `//`, the trimmed text before the first ` = {`. -/
def ruleNameOfLine (line : List Char) : Option (List Char) :=
  let t := trimL line
  if containsSub (txt " = \x7b") t && !startsWithL (txt "//") t then
    some (trimL (takeUntilSub (txt " = \x7b") t))
  else none

/-- All rule names the duplicate check of `validate_composed_grammar` sees. -/
def ruleNamesOf (grammar : List Char) : List (List Char) :=
  (linesL grammar).filterMap ruleNameOfLine

/-- The first name repeating an earlier one (`seen` models the growing `HashSet`). -/
def firstDupAux (seen : List (List Char)) : List (List Char) → Option (List Char)
  | [] => none
  | n :: ns => if seen.contains n then some n else firstDupAux (n :: seen) ns

/-- `GrammarComposer::validate_composed_grammar`: reject the first duplicated
rule name, then reject unbalanced braces. -/
def validate_composed_grammar (grammar : List Char) : Except GrammarCompositionError Unit :=
  match firstDupAux [] (ruleNamesOf grammar) with
  | some n => .error (.DuplicateRule n)
  | none =>
    if grammar.count '\x7b' ≠ grammar.count '\x7d' then
      .error (.SyntaxError (txt "Unbalanced braces in composed grammar"))
    else .ok ()

/-- `GrammarComposer::compose`: validate the base grammar, collect the extension
rule text (priority-ordered), inject it unless trivially empty, and validate the
result. `base_grammar` is the composer's `base_grammar` field; `order` is the
iteration order of the registry's `grammar_extensions` map values. -/
def compose (base_grammar : List Char) (order : List GrammarExt) :
    Except GrammarCompositionError (List Char) := do
  validate_base_grammar base_grammar
  let extension_rules := compose_grammar order []
  let composed ←
    if !(trimL extension_rules).isEmpty then
      inject_extension_rules base_grammar extension_rules
    else pure base_grammar
  validate_composed_grammar composed
  pure composed

/-- Modelled from the spec: the bundled base grammar `choreography.pest` is not
under `src/` (it is embedded with `include_str!`). Following §4.5 of the spec
and the markers `validate_base_grammar`/`inject_extension_rules` require, the
base grammar is modelled as a small Pest grammar with unique rule names,
balanced braces, and the fixed statement extension point: the `annotated_stmt`
rule with its `send_stmt | broadcast_stmt` alternation. -/
def mBase : List Char :=
  txt "choreography = \x7b statement* \x7d\n" ++
  txt "annotated_stmt = \x7b annotation* ~ (send_stmt | broadcast_stmt) \x7d\n" ++
  txt "send_stmt = \x7b role ~ \"->\" ~ role ~ \":\" ~ message \x7d\n" ++
  txt "broadcast_stmt = \x7b role ~ \"=>\" ~ \"all\" ~ \":\" ~ message \x7d\n" ++
  txt "annotation = \x7b \"#\" ~ name \x7d"

/-! ## The extension registry (`extensions.rs`) -/

/-- Lookup in the association-list model of `HashMap`. -/
def hmLookup (k : List Char) : List (List Char × α) → Option α
  | [] => none
  | p :: m => if p.1 = k then some p.2 else hmLookup k m

/-- Insert in the association-list model of `HashMap`: the new pair replaces any
pair with the same key (`HashMap::insert` overwrites). -/
def hmInsert (k : List Char) (v : α) (m : List (List Char × α)) : List (List Char × α) :=
  (k, v) :: m.filter (fun p => !(p.1 == k))

/-- `ExtensionRegistry`: grammar extensions keyed by extension id, statement
parsers keyed by parser id (parsers themselves are opaque here, modelled as
`Nat` handles), and the rule-name → owning-extension-id map `rule_to_parser`. -/
structure ExtensionRegistry where
  grammar_extensions : List (List Char × GrammarExt)
  statementParsers : List (List Char × Nat)
  ruleToParser : List (List Char × List Char)
deriving DecidableEq

/-- `ExtensionRegistry::new()`. -/
def emptyRegistry : ExtensionRegistry := ⟨[], [], []⟩

/-- `ExtensionRegistry::register_grammar`: map each declared statement rule name
to this extension's id (overwriting any previous owner), then store the
extension keyed by its id. Registration cannot fail. -/
def register_grammar (reg : ExtensionRegistry) (extension : GrammarExt) : ExtensionRegistry :=
  { grammar_extensions := hmInsert extension.extension_id extension reg.grammar_extensions
    statementParsers := reg.statementParsers
    ruleToParser :=
      extension.statement_rules.foldl
        (fun m rule => hmInsert rule extension.extension_id m) reg.ruleToParser }

/-- `ExtensionRegistry::register_parser` (model named `registerParser`). -/
def registerParser (reg : ExtensionRegistry) (parser_id : List Char) (p : Nat) :
    ExtensionRegistry :=
  { grammar_extensions := reg.grammar_extensions
    statementParsers := hmInsert parser_id p reg.statementParsers
    ruleToParser := reg.ruleToParser }

/-- `ExtensionRegistry::find_parser` (model of `find_parser`): resolve the rule
name to its owning extension id, then look the parser up under that id. -/
def findParser (reg : ExtensionRegistry) (rule_name : List Char) : Option Nat :=
  match hmLookup rule_name reg.ruleToParser with
  | some parser_id => hmLookup parser_id reg.statementParsers
  | none => none

/-- `ExtensionRegistry::can_handle`. -/
def can_handle (reg : ExtensionRegistry) (rule_name : List Char) : Bool :=
  (hmLookup rule_name reg.ruleToParser).isSome

/-! ## The projection engine (spec-modelled)

Modelled from the spec: the projection engine's source is not under `src/`
(only `crate::compiler::projection::ProjectionError` is referenced by
`extensions.rs`), so the algorithm of spec §4.3 is modelled here: per-node
projection with role erasure, `Loop` wrappers preserved for silent roles, and
the branch-merge rule for a `Choice` — branches not mentioning the target role
must all project to structurally identical local types, merge-compatible with
the external choice formed by the branches that do mention it; otherwise
projection fails with the non-projectable (merge) error. Labelled branch lists
are represented by the mutually defined `Branches`/`LTBranches` so that all
recursion is structural. -/

/-- Modelled from the spec: a role, identified by its name (§3; parameterized
role families are not needed for the merge rule). -/
abbrev Role := List Char

/-- Modelled from the spec: a message type, opaque beyond identity (§3). -/
abbrev MessageType := List Char

/-- Modelled from the spec: a branch label of a `Choice` (§3). -/
abbrev BranchLabel := List Char

mutual

/-- Modelled from the spec: the global-protocol AST (§3), restricted to the
closed built-in variants `Send`, `Choice`, `Loop`, `End`. -/
inductive Protocol where
  | Send (src dst : Role) (message : MessageType) (continuation : Protocol)
  | Choice (decider : Role) (branches : Branches)
  | Loop (body : Protocol)
  | End
deriving DecidableEq

/-- A labelled list of `Choice` branches (`ordered mapping label → Protocol`, §3). -/
inductive Branches where
  | nil
  | cons (label : BranchLabel) (branch : Protocol) (rest : Branches)
deriving DecidableEq

end

mutual

/-- Modelled from the spec: the per-role local type (§3). -/
inductive LocalType where
  | Send (peer : Role) (message : MessageType) (continuation : LocalType)
  | Receive (peer : Role) (message : MessageType) (continuation : LocalType)
  | InternalChoice (branches : LTBranches)
  | ExternalChoice (branches : LTBranches)
  | Loop (body : LocalType)
  | End
deriving DecidableEq

/-- A labelled list of local-type continuations. -/
inductive LTBranches where
  | nil
  | cons (label : BranchLabel) (branch : LocalType) (rest : LTBranches)
deriving DecidableEq

end

/-- View a `Branches` value as a list of labelled branches. -/
def Branches.toList : Branches → List (BranchLabel × Protocol)
  | .nil => []
  | .cons l p rest => (l, p) :: rest.toList

/-- Build an `LTBranches` value from a list of labelled continuations. -/
def LTBranches.ofList : List (BranchLabel × LocalType) → LTBranches
  | [] => .nil
  | (l, t) :: rest => .cons l t (LTBranches.ofList rest)

/-- Modelled from the spec: `ProjectionError` (§4.3); `NotProjectable` is the
merge failure. (`ExtensionFailed` concerns extension nodes, outside this model.) -/
inductive ProjectionError where
  | NotProjectable
  | UnknownRole
deriving DecidableEq

mutual

/-- Modelled from the spec: does this protocol mention the role (§3/§4.4)? -/
def mentionsRole (r : Role) : Protocol → Bool
  | .Send a b _ c => r = a || r = b || mentionsRole r c
  | .Choice d bs => r = d || mentionsBranches r bs
  | .Loop body => mentionsRole r body
  | .End => false

/-- Does some branch mention the role? -/
def mentionsBranches (r : Role) : Branches → Bool
  | .nil => false
  | .cons _ p bs => mentionsRole r p || mentionsBranches r bs

end

mutual

/-- Modelled from the spec: the projection algorithm of §4.3, with `none` as
the merge failure. `Send`: emit `Send`/`Receive` for the two endpoints, skip
the node for uninvolved roles. `Choice`: the decider receives an
`InternalChoice` over all branches; otherwise the branches mentioning the
target role form an `ExternalChoice`, and every branch not mentioning it must
project to one common local type — structurally identical across those
branches, and identical to that external choice when one exists — else the
choice is not locally implementable. `Loop`: the wrapper is kept even for
roles silent in the body. `End` projects to `End`. -/
def projectO (r : Role) : Protocol → Option LocalType
  | .Send a b m cont =>
    if r = a then (projectO r cont).map (LocalType.Send b m)
    else if r = b then (projectO r cont).map (LocalType.Receive a m)
    else projectO r cont
  | .Choice d bs =>
    match projectBranches r bs with
    | none => none
    | some projected =>
      if r = d then
        some (.InternalChoice (LTBranches.ofList (projected.map (fun q => (q.1, q.2.2)))))
      else
        let present := (projected.filter (fun q => q.2.1)).map (fun q => (q.1, q.2.2))
        let absent := (projected.filter (fun q => !q.2.1)).map (fun q => q.2.2)
        match absent with
        | [] => some (.ExternalChoice (LTBranches.ofList present))
        | t :: rest =>
          if present.isEmpty then
            if rest.all (fun u => decide (u = t)) then some t else none
          else
            let ext := LocalType.ExternalChoice (LTBranches.ofList present)
            if (t :: rest).all (fun u => decide (u = ext)) then some ext else none
  | .Loop body => (projectO r body).map LocalType.Loop
  | .End => some .End

/-- Project every branch, pairing each label with whether the branch mentions
the target role and with the branch's projection. -/
def projectBranches (r : Role) :
    Branches → Option (List (BranchLabel × Bool × LocalType))
  | .nil => some []
  | .cons l p bs =>
    match projectO r p, projectBranches r bs with
    | some t, some rest => some ((l, mentionsRole r p, t) :: rest)
    | _, _ => none

end

/-- Modelled from the spec: `project(protocol, target_role)` of §4.3, reporting
the merge failure as `ProjectionError.NotProjectable`. -/
def project (p : Protocol) (target_role : Role) : Except ProjectionError LocalType :=
  match projectO target_role p with
  | some t => .ok t
  | none => .error .NotProjectable

/-! ## Helper instances and lemmas -/

/-- Decidable equality of `Except` results. -/
instance exceptDecEq [DecidableEq ε] [DecidableEq α] : DecidableEq (Except ε α) := fun a b =>
  match a, b with
  | .ok x, .ok y =>
    match decEq x y with
    | isTrue h => isTrue (by rw [h])
    | isFalse h => isFalse (by intro he; cases he; exact h rfl)
  | .error x, .error y =>
    match decEq x y with
    | isTrue h => isTrue (by rw [h])
    | isFalse h => isFalse (by intro he; cases he; exact h rfl)
  | .ok _, .error _ => isFalse (by intro he; cases he)
  | .error _, .ok _ => isFalse (by intro he; cases he)

/-! ## C6: grammar composition is deterministic and free of I/O

In this embedding `compose` is a pure function of the composer state (base
grammar and registry contents in their iteration order): its type is
`Except GrammarCompositionError (List Char)` with no effects, mirroring that
the Rust `compose(&self)` only reads `self`; the sole file-system touchpoint of
`grammar.rs` is the separate `write_composed_grammar`, which is the only
function calling `fs::write`. Determinism is the statement that two calls on
equal state produce identical (byte-identical) results. -/

/-! ## C10: composing with no registered extensions returns the base unchanged -/

/-! ## C8: a base grammar lacking the extension point is rejected first -/

/-! ## C3: the branch-merge law of projection -/

/-! ## Ordering lemmas for `compose_grammar` (C4, C5) -/

/-- The extension-rules block: a newline then the rule text, per extension. -/
def joinRules (l : List GrammarExt) : List Char :=
  (l.map (fun e => '\n' :: e.grammar_rules)).flatten

/-- Descending-priority order between two extensions. -/
def prioGE (a b : GrammarExt) : Prop := b.priority ≤ a.priority

/-! ## C4: higher-priority extensions are emitted first -/

/-- A priority-50 extension, for the C4 witness. -/
def extLo : GrammarExt :=
  { extension_id := txt "ext_lo"
    grammar_rules := txt "low_stmt = \x7b \"low\" \x7d"
    statement_rules := [txt "low_stmt"]
    priority := 50 }

/-- A priority-200 extension, for the C4 witness. -/
def extHi : GrammarExt :=
  { extension_id := txt "ext_hi"
    grammar_rules := txt "high_stmt = \x7b \"high\" \x7d"
    statement_rules := [txt "high_stmt"]
    priority := 200 }

/-- Register a list of extensions in order (`register_grammar` repeatedly). -/
def registerAll (reg : ExtensionRegistry) (es : List GrammarExt) : ExtensionRegistry :=
  es.foldl register_grammar reg

/-- An equal-priority extension registered first, for C5. -/
def extOne : GrammarExt :=
  { extension_id := txt "ext_one"
    grammar_rules := txt "one_stmt = \x7b \"one\" \x7d"
    statement_rules := [txt "one_stmt"]
    priority := 100 }

/-- An equal-priority extension registered second, for C5. -/
def extTwo : GrammarExt :=
  { extension_id := txt "ext_two"
    grammar_rules := txt "two_stmt = \x7b \"two\" \x7d"
    statement_rules := [txt "two_stmt"]
    priority := 100 }

/-- Specification-side description of the (amended) ownership discipline: the
owner of a rule name after registering `es` in order is the id of the **last**
extension in `es` declaring that name among its statement rules. -/
def ownerSpec (es : List GrammarExt) (rule : List Char) : Option (List Char) :=
  (es.reverse.find? (fun e => decide (rule ∈ e.statement_rules))).map
    (fun e => e.extension_id)

/-- An extension claiming rule `x_stmt`, registered first, for the C7 counterexample. -/
def extXA : GrammarExt :=
  { extension_id := txt "ext_a"
    grammar_rules := txt "x_stmt = \x7b \"a\" \x7d"
    statement_rules := [txt "x_stmt"]
    priority := 100 }

/-- A second extension claiming the same rule `x_stmt`, for the C7 counterexample. -/
def extXB : GrammarExt :=
  { extension_id := txt "ext_b"
    grammar_rules := txt "x_stmt = \x7b \"b\" \x7d"
    statement_rules := [txt "x_stmt"]
    priority := 100 }

/-! ## C2: splicing of a single extension's statement rule -/

/-- Number of (possibly overlapping) occurrences of `p` in `s`. -/
def countSub (p s : List Char) : Nat :=
  ((List.range (s.length + 1)).filter (fun i => startsWithL p (s.drop i))).length

/-- The repository's own test extension (`grammar.rs` tests): `statement_rules()`
is `["timeout_stmt"]` and `grammar_rules()` defines `timeout_stmt` on a single
line. -/
def testExtension : GrammarExt :=
  { extension_id := txt "test_timeout"
    grammar_rules :=
      txt "timeout_stmt = \x7b \"timeout\" ~ integer ~ \"\x7b\" ~ protocol_body ~ \"\x7d\" \x7d"
    statement_rules := [txt "timeout_stmt"]
    priority := 100 }

/-- The composed output for `testExtension`: the base grammar unchanged, then
the extension-rules section. -/
def composedSingle : List Char :=
  mBase ++ txt "\n// Extension Rules\n\n" ++ testExtension.grammar_rules

/-- The multi-line variant of the test extension's rule text, whose first line
ends with `_stmt = {`. -/
def testExtensionML : GrammarExt :=
  { extension_id := txt "test_timeout"
    grammar_rules :=
      txt "timeout_stmt = \x7b\n    \"timeout\" ~ integer ~ \"\x7b\" ~ protocol_body ~ \"\x7d\"\n\x7d"
    statement_rules := [txt "timeout_stmt"]
    priority := 100 }

/-- The composed output for `testExtensionML`: the base grammar with
`timeout_stmt` spliced into the statement alternation, then the extension-rules
section. -/
def composedML : List Char :=
  txt "choreography = \x7b statement* \x7d\n" ++
  txt "annotated_stmt = \x7b annotation* ~ (send_stmt | broadcast_stmt | timeout_stmt) \x7d\n" ++
  txt "send_stmt = \x7b role ~ \"->\" ~ role ~ \":\" ~ message \x7d\n" ++
  txt "broadcast_stmt = \x7b role ~ \"=>\" ~ \"all\" ~ \":\" ~ message \x7d\n" ++
  txt "annotation = \x7b \"#\" ~ name \x7d" ++
  txt "\n// Extension Rules\n\n" ++ testExtensionML.grammar_rules

/-- An extension whose rule text has one unmatched opening brace, for the C9
witness. -/
def extUnbal : GrammarExt :=
  { extension_id := txt "ext_bad"
    grammar_rules := txt "bad_stmt = \x7b \"x\""
    statement_rules := [txt "bad_stmt"]
    priority := 100 }

/-- The composed text for `extUnbal`. -/
def composedUnbal : List Char :=
  mBase ++ txt "\n// Extension Rules\n\n" ++ extUnbal.grammar_rules

/-! ## C1: duplicate rule names across two extensions -/

/-- The rule names contributed by a text, counting a possible final empty line
too (which contributes none): a convenient variant of `ruleNamesOf`. -/
def namesOfFull (s : List Char) : List (List Char) :=
  (splitNl s).filterMap ruleNameOfLine

/-- The rule names of the modelled base grammar. -/
def mBaseNames : List (List Char) :=
  [txt "choreography", txt "annotated_stmt", txt "send_stmt", txt "broadcast_stmt",
    txt "annotation"]

/-- The base-grammar part of the injection result on the modelled base: spliced
at position 90 (the closing parenthesis of the statement alternation) when any
statement rules were extracted. -/
def spliceBase (ext : List Char) : List Char :=
  if (extract_extension_statements ext).isEmpty then mBase
  else
    mBase.take 90 ++ txt " | " ++
      joinSep (txt " | ") (extract_extension_statements ext) ++ mBase.drop 90

/-- The full injection result on the modelled base. -/
def spliceResult (ext : List Char) : List Char :=
  spliceBase ext ++ '\n' :: txt "// Extension Rules\n" ++ ext

/-- First extension defining rule `x_stmt`, for the C1 witness. -/
def extDup1 : GrammarExt :=
  { extension_id := txt "ext_dup_one"
    grammar_rules := txt "x_stmt = \x7b \"a\" \x7d"
    statement_rules := [txt "x_stmt"]
    priority := 100 }

/-- Second extension also defining rule `x_stmt`, for the C1 witness. -/
def extDup2 : GrammarExt :=
  { extension_id := txt "ext_dup_two"
    grammar_rules := txt "x_stmt = \x7b \"b\" \x7d"
    statement_rules := [txt "x_stmt"]
    priority := 100 }

/-! ## Theorems -/

theorem exbind_ok (a : α) (f : α → Except ε β) : (Except.ok a >>= f) = f a := rfl

theorem exbind_err (e : ε) (f : α → Except ε β) :
    ((Except.error e : Except ε α) >>= f) = Except.error e := rfl

/-- C6: two calls of `compose` on the same composer state (same base grammar,
same registry contents and iteration order) return byte-identical grammar
text; `compose` itself performs no I/O (it is a pure `Except` computation in
this model, matching the Rust function's effect-free body). -/
theorem compose_deterministic (b₁ b₂ : List Char) (o₁ o₂ : List GrammarExt)
    (hb : b₁ = b₂) (ho : o₁ = o₂) : compose b₁ o₁ = compose b₂ o₂ := by
  rw [hb, ho]

/-- Witness for C6 at the modelled base grammar and the empty registry. -/
theorem compose_deterministic_witness : compose mBase [] = compose mBase [] :=
  compose_deterministic mBase mBase [] [] rfl rfl

/-- C10: for a composer whose registry holds no extensions, `compose` succeeds
and returns the base grammar byte-identically (no splicing, no appended
extension section), for every base grammar that passes the base and composed
validations — in particular the bundled one. -/
theorem compose_empty_registry (base : List Char)
    (h1 : validate_base_grammar base = .ok ())
    (h2 : validate_composed_grammar base = .ok ()) :
    compose base [] = .ok base := by
  have hext : compose_grammar [] [] = [] := rfl
  unfold compose
  rw [h1, exbind_ok, hext]
  show (pure base >>= fun composed =>
    validate_composed_grammar composed >>= fun _ => pure composed) = .ok base
  rw [show (pure base : Except GrammarCompositionError (List Char)) = .ok base from rfl,
    exbind_ok, h2, exbind_ok]
  rfl

/-- Witness for C10 at the modelled base grammar. -/
theorem compose_empty_registry_witness : compose mBase [] = .ok mBase :=
  compose_empty_registry mBase (by decide) (by decide)

/-- The loop of `validate_base_grammar` fails with `InvalidBaseGrammar` as soon
as some required marker is missing. -/
theorem validate_base_aux_error (grammar : List Char) (rs : List (List Char))
    (h : ∃ r ∈ rs, containsSub r grammar = false) :
    ∃ msg, validate_base_aux grammar rs = .error (.InvalidBaseGrammar msg) := by
  induction rs with
  | nil => rcases h with ⟨r, hr, _⟩; cases hr
  | cons r rs ih =>
    by_cases hc : containsSub r grammar = true
    · rcases h with ⟨r', hr', hmiss⟩
      rcases List.mem_cons.mp hr' with rfl | hmem
      · rw [hc] at hmiss; cases hmiss
      · rcases ih ⟨r', hmem, hmiss⟩ with ⟨msg, hmsg⟩
        exact ⟨msg, by simpa [validate_base_aux, hc] using hmsg⟩
    · refine ⟨txt "Missing required rule: " ++ r, ?_⟩
      simp [validate_base_aux, hc]

/-- C8: for every base grammar text missing one of the fixed extension-point
markers (`annotated_stmt = {`, the `annotation* ~` prefix of its alternation,
`send_stmt`, `broadcast_stmt`), `compose` fails with `InvalidBaseGrammar` — the
internal-defect category — before any extension rules are injected
(`validate_base_grammar` is the first step of `compose`, short-circuiting the
injection and composed-validation steps). -/
theorem compose_invalid_base (base : List Char) (order : List GrammarExt)
    (h : ∃ r ∈ required_rules, containsSub r base = false) :
    ∃ msg, compose base order = .error (.InvalidBaseGrammar msg) := by
  rcases validate_base_aux_error base required_rules h with ⟨msg, hmsg⟩
  refine ⟨msg, ?_⟩
  unfold compose
  rw [show validate_base_grammar base = .error (.InvalidBaseGrammar msg) from hmsg, exbind_err]

/-- Witness for C8: the empty base grammar lacks every marker. -/
theorem compose_invalid_base_witness :
    ∃ msg, compose [] [] = .error (.InvalidBaseGrammar msg) :=
  compose_invalid_base [] [] ⟨txt "annotated_stmt = \x7b", by decide, by decide⟩

/-- Every successfully projected branch appears in the output of
`projectBranches`, tagged with its mention flag and its projection. -/
theorem projectBranches_mem (r : Role) (bs : Branches)
    (projected : List (BranchLabel × Bool × LocalType))
    (h : projectBranches r bs = some projected)
    (l : BranchLabel) (p : Protocol) (hmem : (l, p) ∈ bs.toList)
    (t : LocalType) (hp : projectO r p = some t) :
    (l, mentionsRole r p, t) ∈ projected := by
  cases bs with
  | nil => cases hmem
  | cons l' p' rest =>
    rcases List.mem_cons.mp hmem with heq | hmem'
    · cases heq
      rw [projectBranches, hp] at h
      cases hrest : projectBranches r rest with
      | none => rw [hrest] at h; cases h
      | some restP => rw [hrest] at h; cases h; exact List.mem_cons_self _ _
    · rw [projectBranches] at h
      cases hp' : projectO r p' with
      | none => rw [hp'] at h; cases h
      | some t' =>
        rw [hp'] at h
        cases hrest : projectBranches r rest with
        | none => rw [hrest] at h; cases h
        | some restP =>
          rw [hrest] at h; cases h
          exact List.mem_cons_of_mem _
            (projectBranches_mem r rest restP hrest l p hmem' t hp)

/-- C3: for a `Choice` and a role `r` (other than the decider) absent from two
branches `B1` and `B2`, projection demands the projections of `B1` and `B2` be
structurally identical local types; when they differ, projecting the whole
choice for `r` fails with the non-projectable merge error — it never succeeds
with a local type taken from just one branch. Spec-modelled (§4.3/§8 merge
law): the projection engine is not among the visible sources. -/
theorem choice_merge_law (d : Role) (bs : Branches) (r : Role)
    (l1 l2 : BranchLabel) (B1 B2 : Protocol) (t1 t2 : LocalType)
    (hm1 : (l1, B1) ∈ bs.toList) (hm2 : (l2, B2) ∈ bs.toList)
    (hrd : r ≠ d)
    (ha1 : mentionsRole r B1 = false) (ha2 : mentionsRole r B2 = false)
    (hp1 : project B1 r = .ok t1) (hp2 : project B2 r = .ok t2)
    (hne : t1 ≠ t2) :
    project (.Choice d bs) r = .error .NotProjectable := by
  have hpo1 : projectO r B1 = some t1 := by
    unfold project at hp1
    cases hx : projectO r B1 with
    | none => rw [hx] at hp1; cases hp1
    | some u => rw [hx] at hp1; cases hp1; rfl
  have hpo2 : projectO r B2 = some t2 := by
    unfold project at hp2
    cases hx : projectO r B2 with
    | none => rw [hx] at hp2; cases hp2
    | some u => rw [hx] at hp2; cases hp2; rfl
  unfold project
  suffices hnone : projectO r (.Choice d bs) = none by rw [hnone]
  rw [projectO]
  cases hpb : projectBranches r bs with
  | none => rfl
  | some projected =>
    have hq1 := projectBranches_mem r bs projected hpb l1 B1 hm1 t1 hpo1
    have hq2 := projectBranches_mem r bs projected hpb l2 B2 hm2 t2 hpo2
    rw [ha1] at hq1
    rw [ha2] at hq2
    simp only [if_neg hrd]
    have habs1 : t1 ∈ (projected.filter (fun q => !q.2.1)).map (fun q => q.2.2) :=
      List.mem_map.mpr ⟨(l1, false, t1), List.mem_filter.mpr ⟨hq1, rfl⟩, rfl⟩
    have habs2 : t2 ∈ (projected.filter (fun q => !q.2.1)).map (fun q => q.2.2) :=
      List.mem_map.mpr ⟨(l2, false, t2), List.mem_filter.mpr ⟨hq2, rfl⟩, rfl⟩
    cases habs : (projected.filter (fun q => !q.2.1)).map (fun q => q.2.2) with
    | nil => rw [habs] at habs1; cases habs1
    | cons t rest =>
      rw [habs] at habs1 habs2
      have hmemall : ∀ u ∈ t :: rest, ∀ v, ((t :: rest).all fun w => decide (w = v)) = true →
          u = v := by
        intro u hu v hall
        exact of_decide_eq_true (List.all_eq_true.mp hall u hu)
      by_cases hpe : ((projected.filter (fun q => q.2.1)).map (fun q => (q.1, q.2.2))).isEmpty
      · simp only [hpe, if_true]
        cases hall : rest.all (fun u => decide (u = t)) with
        | false => rfl
        | true =>
          exfalso
          have hallc : ((t :: rest).all fun w => decide (w = t)) = true := by
            simp [List.all_cons, hall]
          exact hne ((hmemall t1 habs1 t hallc).trans (hmemall t2 habs2 t hallc).symm)
      · simp only [hpe, if_false]
        cases hall : ((t :: rest).all fun w =>
            decide (w = LocalType.ExternalChoice (LTBranches.ofList
              ((projected.filter (fun q => q.2.1)).map (fun q => (q.1, q.2.2)))))) with
        | false => rfl
        | true =>
          exfalso
          exact hne ((hmemall t1 habs1 _ hall).trans (hmemall t2 habs2 _ hall).symm)

/-- Witness for C3: `choice at A { a: End, b: Loop End }` projected for the
uninvolved role `C`: the two branch projections (`End` vs `Loop End`) differ,
so the choice is not projectable for `C`. -/
theorem choice_merge_law_witness :
    project (.Choice (txt "A") (.cons (txt "a") .End
      (.cons (txt "b") (.Loop .End) .nil))) (txt "C") = .error .NotProjectable :=
  choice_merge_law (txt "A") (.cons (txt "a") .End (.cons (txt "b") (.Loop .End) .nil))
    (txt "C") (txt "a") (txt "b") .End (.Loop .End) .End (.Loop .End)
    (by decide) (by decide) (by decide) (by decide) (by decide) rfl rfl (by decide)

theorem foldl_rules_append (l : List GrammarExt) (acc : List Char) :
    l.foldl (fun a e => a ++ '\n' :: e.grammar_rules) acc = acc ++ joinRules l := by
  induction l generalizing acc with
  | nil => simp [joinRules]
  | cons e l ih => simp [joinRules, List.foldl_cons, ih]

theorem compose_grammar_eq (order : List GrammarExt) (base : List Char) :
    compose_grammar order base = base ++ joinRules (sortByPrioDesc order) := by
  unfold compose_grammar
  rw [foldl_rules_append, List.nil_append]

theorem insertPrio_mem (e x : GrammarExt) (l : List GrammarExt) :
    x ∈ insertPrio e l ↔ x = e ∨ x ∈ l := by
  induction l with
  | nil => simp [insertPrio]
  | cons y l ih =>
    by_cases h : e.priority ≤ y.priority
    · simp only [insertPrio, if_pos h, List.mem_cons, ih]
      tauto
    · simp [insertPrio, if_neg h]

theorem insertPrio_sorted (e : GrammarExt) (l : List GrammarExt)
    (h : l.Pairwise prioGE) : (insertPrio e l).Pairwise prioGE := by
  induction l with
  | nil => simp [insertPrio, prioGE]
  | cons x xs ih =>
    rcases List.pairwise_cons.mp h with ⟨hx, hxs⟩
    by_cases hc : e.priority ≤ x.priority
    · rw [insertPrio, if_pos hc]
      refine List.pairwise_cons.mpr ⟨?_, ih hxs⟩
      intro y hy
      rcases (insertPrio_mem e y xs).mp hy with rfl | hmem
      · exact hc
      · exact hx y hmem
    · rw [insertPrio, if_neg hc]
      have hlt : x.priority ≤ e.priority := Nat.le_of_lt (Nat.lt_of_not_le hc)
      refine List.pairwise_cons.mpr ⟨?_, h⟩
      intro y hy
      rcases List.mem_cons.mp hy with rfl | hmem
      · exact hlt
      · exact Nat.le_trans (hx y hmem) hlt

theorem foldl_insertPrio_sorted (l acc : List GrammarExt)
    (h : acc.Pairwise prioGE) :
    (l.foldl (fun a e => insertPrio e a) acc).Pairwise prioGE := by
  induction l generalizing acc with
  | nil => exact h
  | cons e l ih => exact ih _ (insertPrio_sorted e acc h)

theorem sortByPrioDesc_sorted (l : List GrammarExt) :
    (sortByPrioDesc l).Pairwise prioGE :=
  foldl_insertPrio_sorted l [] (by simp)

theorem insertPrio_perm (e : GrammarExt) (l : List GrammarExt) :
    List.Perm (insertPrio e l) (e :: l) := by
  induction l with
  | nil => exact List.Perm.refl _
  | cons x xs ih =>
    by_cases h : e.priority ≤ x.priority
    · rw [insertPrio, if_pos h]
      exact (ih.cons x).trans (List.Perm.swap e x xs)
    · rw [insertPrio, if_neg h]

theorem foldl_insertPrio_perm (l acc : List GrammarExt) :
    List.Perm (l.foldl (fun a e => insertPrio e a) acc) (acc ++ l) := by
  induction l generalizing acc with
  | nil => simp
  | cons e l ih =>
    exact (ih (insertPrio e acc)).trans
      (((insertPrio_perm e acc).append_right l).trans List.perm_middle.symm)

theorem sortByPrioDesc_perm (l : List GrammarExt) :
    List.Perm (sortByPrioDesc l) l := by
  simpa using foldl_insertPrio_perm l []

theorem sorted_decomp (out : List GrammarExt) (A B : GrammarExt)
    (hs : out.Pairwise prioGE) (hA : A ∈ out) (hB : B ∈ out)
    (hlt : A.priority < B.priority) :
    ∃ u v w, out = u ++ B :: (v ++ A :: w) := by
  induction out with
  | nil => cases hA
  | cons x rest ih =>
    rcases List.pairwise_cons.mp hs with ⟨hx, hrest⟩
    by_cases hBx : B = x
    · subst hBx
      have hA' : A ∈ rest := by
        rcases List.mem_cons.mp hA with rfl | h
        · exact absurd hlt (Nat.lt_irrefl _)
        · exact h
      rcases List.append_of_mem hA' with ⟨v, w, rfl⟩
      exact ⟨[], v, w, by simp⟩
    · have hB' : B ∈ rest := by
        rcases List.mem_cons.mp hB with rfl | h
        · exact absurd rfl hBx
        · exact h
      have hA' : A ∈ rest := by
        rcases List.mem_cons.mp hA with rfl | h
        · exact absurd hlt (Nat.not_lt.mpr (hx B hB'))
        · exact h
      rcases ih hrest hA' hB' with ⟨u, v, w, heq⟩
      exact ⟨x :: u, v, w, by rw [heq]; rfl⟩

theorem joinRules_decomp (u : List GrammarExt) (X : GrammarExt)
    (v : List GrammarExt) (Y : GrammarExt) (w : List GrammarExt) :
    joinRules (u ++ X :: (v ++ Y :: w)) =
      (joinRules u ++ ['\n']) ++ X.grammar_rules ++ (joinRules v ++ ['\n']) ++
        Y.grammar_rules ++ joinRules w := by
  simp [joinRules, List.append_assoc]

/-- C4: for any two registered extensions `A` and `B` with
`A.priority < B.priority`, `B`'s rule text appears before `A`'s in the output
of `compose_grammar`, whatever iteration order the registry's hash map
produces: the stable sort puts strictly higher priorities strictly earlier. -/
theorem compose_grammar_priority_precedence (order : List GrammarExt) (base : List Char)
    (A B : GrammarExt) (hA : A ∈ order) (hB : B ∈ order)
    (hlt : A.priority < B.priority) :
    ∃ s1 s2 s3, compose_grammar order base =
      s1 ++ B.grammar_rules ++ s2 ++ A.grammar_rules ++ s3 := by
  have hperm := sortByPrioDesc_perm order
  have hs := sortByPrioDesc_sorted order
  have hA' : A ∈ sortByPrioDesc order := hperm.mem_iff.mpr hA
  have hB' : B ∈ sortByPrioDesc order := hperm.mem_iff.mpr hB
  rcases sorted_decomp _ A B hs hA' hB' hlt with ⟨u, v, w, heq⟩
  refine ⟨base ++ (joinRules u ++ ['\n']), joinRules v ++ ['\n'], joinRules w, ?_⟩
  rw [compose_grammar_eq, heq, joinRules_decomp]
  simp [List.append_assoc]

/-- Witness for C4: priorities 50 and 200, registered low-priority first. -/
theorem compose_grammar_priority_precedence_witness :
    ∃ s1 s2 s3, compose_grammar [extLo, extHi] [] =
      s1 ++ extHi.grammar_rules ++ s2 ++ extLo.grammar_rules ++ s3 :=
  compose_grammar_priority_precedence [extLo, extHi] [] extLo extHi
    (by decide) (by decide) (by decide)

/-! ## C5: priority ties and registration order -/

theorem filter_insertPrio (e : GrammarExt) (acc : List GrammarExt) (p : Nat)
    (hs : acc.Pairwise prioGE) :
    (insertPrio e acc).filter (fun x => x.priority == p) =
      if e.priority == p then acc.filter (fun x => x.priority == p) ++ [e]
      else acc.filter (fun x => x.priority == p) := by
  induction acc with
  | nil => by_cases he : e.priority == p <;> simp_all [insertPrio]
  | cons x xs ih =>
    rcases List.pairwise_cons.mp hs with ⟨hx, hxs⟩
    by_cases hc : e.priority ≤ x.priority
    · rw [insertPrio, if_pos hc]
      by_cases he : (e.priority == p) = true <;>
        by_cases hxp : (x.priority == p) = true <;>
          simp [List.filter_cons, hxp, he, ih hxs]
    · rw [insertPrio, if_neg hc]
      have hxlt : x.priority < e.priority := Nat.lt_of_not_le hc
      by_cases he : (e.priority == p) = true
      · have hep : e.priority = p := by simpa using he
        have hnone : (x :: xs).filter (fun y => y.priority == p) = [] := by
          refine List.filter_eq_nil_iff.mpr ?_
          intro y hy
          have hyx : y.priority ≤ x.priority := by
            rcases List.mem_cons.mp hy with rfl | hmem
            · exact Nat.le_refl _
            · exact hx y hmem
          have : y.priority ≠ p := by omega
          simpa using this
        simp [List.filter_cons, he, hnone]
      · simp [List.filter_cons, he]

theorem filter_foldl_insertPrio (l acc : List GrammarExt) (p : Nat)
    (hs : acc.Pairwise prioGE) :
    (l.foldl (fun a e => insertPrio e a) acc).filter (fun x => x.priority == p) =
      acc.filter (fun x => x.priority == p) ++ l.filter (fun x => x.priority == p) := by
  induction l generalizing acc with
  | nil => simp
  | cons e l ih =>
    rw [List.foldl_cons, ih (insertPrio e acc) (insertPrio_sorted e acc hs),
      filter_insertPrio e acc p hs]
    by_cases he : (e.priority == p) = true <;>
      simp [List.filter_cons, he, List.append_assoc]

/-- Stability of the sort: for each priority `p`, the priority-`p` extensions
appear in the sorted output in exactly their input (iteration) order. -/
theorem filter_sortByPrioDesc (l : List GrammarExt) (p : Nat) :
    (sortByPrioDesc l).filter (fun x => x.priority == p) =
      l.filter (fun x => x.priority == p) := by
  simpa using filter_foldl_insertPrio l [] p (by simp)

theorem filter_decomp_one {α : Type} (p : α → Bool) (L : List α) (v w : List α) (b : α)
    (h : L.filter p = v ++ b :: w) :
    ∃ v' w', L = v' ++ b :: w' ∧ w'.filter p = w := by
  induction L generalizing v with
  | nil => cases v <;> exact absurd h (by simp)
  | cons x L ih =>
    by_cases hx : p x = true
    · rw [List.filter_cons, if_pos hx] at h
      cases v with
      | nil =>
        injection h with h1 h2
        exact ⟨[], L, by simp [h1], h2⟩
      | cons a v' =>
        injection h with h1 h2
        rcases ih v' h2 with ⟨v2, w2, hL, hw⟩
        exact ⟨x :: v2, w2, by rw [hL]; rfl, hw⟩
    · rw [List.filter_cons, if_neg hx] at h
      rcases ih v h with ⟨v2, w2, hL, hw⟩
      exact ⟨x :: v2, w2, by rw [hL]; rfl, hw⟩

theorem filter_decomp_two {α : Type} (p : α → Bool) (L u v w : List α) (a b : α)
    (h : L.filter p = u ++ a :: (v ++ b :: w)) :
    ∃ u' v' w', L = u' ++ a :: (v' ++ b :: w') := by
  rcases filter_decomp_one p L u (v ++ b :: w) a h with ⟨u', w1, hL, hw1⟩
  rcases filter_decomp_one p w1 v w b hw1 with ⟨v', w', hW, _⟩
  exact ⟨u', v', w', by rw [hL, hW]⟩

/-- C5 (amended): for equal-priority extensions, `compose_grammar` preserves
the relative order in which the registry's hash map iterates over them (the
sort is stable with respect to the iteration order) — not the registration
order, which the hash map does not remember. If `E1` precedes `E2` in the
iteration order and their priorities are equal, `E1`'s rule text precedes
`E2`'s in the composed output. -/
theorem compose_grammar_tie_stability (order : List GrammarExt) (base : List Char)
    (l1 l2 l3 : List GrammarExt) (E1 E2 : GrammarExt)
    (horder : order = l1 ++ E1 :: l2 ++ E2 :: l3)
    (hprio : E1.priority = E2.priority) :
    ∃ s1 s2 s3, compose_grammar order base =
      s1 ++ E1.grammar_rules ++ s2 ++ E2.grammar_rules ++ s3 := by
  have hfil : (sortByPrioDesc order).filter (fun x => x.priority == E1.priority) =
      l1.filter (fun x => x.priority == E1.priority) ++ E1 ::
        (l2.filter (fun x => x.priority == E1.priority) ++ E2 ::
          l3.filter (fun x => x.priority == E1.priority)) := by
    rw [filter_sortByPrioDesc, horder]
    simp [List.filter_append, List.filter_cons, ← hprio]
  rcases filter_decomp_two (fun x => x.priority == E1.priority) (sortByPrioDesc order)
      (l1.filter (fun x => x.priority == E1.priority))
      (l2.filter (fun x => x.priority == E1.priority))
      (l3.filter (fun x => x.priority == E1.priority)) E1 E2 hfil with ⟨u, v, w, hdec⟩
  refine ⟨base ++ (joinRules u ++ ['\n']), joinRules v ++ ['\n'], joinRules w, ?_⟩
  rw [compose_grammar_eq, hdec, joinRules_decomp]
  simp [List.append_assoc]

theorem startsWithL_self_append (p v : List Char) : startsWithL p (p ++ v) = true := by
  induction p with
  | nil => rfl
  | cons c cs ih => simp [startsWithL, ih]

/-- Counterexample for C5: register equal-priority `extOne` then `extTwo`.
`[extTwo, extOne]` is a permutation of the registered extensions — a legitimate
iteration order of the registry's `HashMap` values (Rust specifies none; this
model's association list even produces exactly this order) — and under it the
later-registered `extTwo`'s rule text is emitted first: the first-registered
extension's text does **not** precede the later one's, refuting tie-breaking by
registration order. -/
theorem compose_grammar_tie_registration_cex :
    List.Perm ((registerAll emptyRegistry [extOne, extTwo]).grammar_extensions.map
      (fun q => q.2)) [extTwo, extOne] ∧
    ¬ ∃ s1 s2 s3, compose_grammar [extTwo, extOne] [] =
        s1 ++ extOne.grammar_rules ++ s2 ++ extTwo.grammar_rules ++ s3 := by
  constructor
  · decide
  · rintro ⟨s1, s2, s3, h⟩
    have hone : ∀ i < 43,
        startsWithL extOne.grammar_rules ((compose_grammar [extTwo, extOne] []).drop i) =
          true → i = 22 := by decide
    have htwo : ∀ i < 43,
        startsWithL extTwo.grammar_rules ((compose_grammar [extTwo, extOne] []).drop i) =
          true → i = 1 := by decide
    have hlen : (compose_grammar [extTwo, extOne] []).length = 42 := by decide
    have hlen1 : extOne.grammar_rules.length = 20 := by decide
    have hlens := congrArg List.length h
    simp only [List.length_append, hlen, hlen1] at hlens
    have h1 : startsWithL extOne.grammar_rules
        ((compose_grammar [extTwo, extOne] []).drop s1.length) = true := by
      have hra : compose_grammar [extTwo, extOne] [] =
          s1 ++ (extOne.grammar_rules ++ (s2 ++ (extTwo.grammar_rules ++ s3))) := by
        rw [h]; simp [List.append_assoc]
      rw [hra, List.drop_left]
      exact startsWithL_self_append _ _
    have h2 : startsWithL extTwo.grammar_rules
        ((compose_grammar [extTwo, extOne] []).drop
          (s1 ++ extOne.grammar_rules ++ s2).length) = true := by
      have h' : compose_grammar [extTwo, extOne] [] =
          (s1 ++ extOne.grammar_rules ++ s2) ++ (extTwo.grammar_rules ++ s3) := by
        rw [h]; simp [List.append_assoc]
      rw [h', List.drop_left]
      exact startsWithL_self_append _ _
    have e1 : s1.length = 22 := hone s1.length (by omega) h1
    have e2 : (s1 ++ extOne.grammar_rules ++ s2).length = 1 := by
      refine htwo _ ?_ h2
      simp only [List.length_append]
      omega
    simp only [List.length_append] at e2
    omega

/-- Witness for C5 (amended): with iteration order `[extTwo, extOne]` and equal
priorities, `extTwo`'s text precedes `extOne`'s. -/
theorem compose_grammar_tie_stability_witness :
    ∃ s1 s2 s3, compose_grammar [extTwo, extOne] [] =
      s1 ++ extTwo.grammar_rules ++ s2 ++ extOne.grammar_rules ++ s3 :=
  compose_grammar_tie_stability [extTwo, extOne] [] [] [] [] extTwo extOne rfl rfl

/-! ## C7: rule-name ownership in the registry -/

theorem hmLookup_insert {α : Type} (k k' : List Char) (v : α) (m : List (List Char × α)) :
    hmLookup k (hmInsert k' v m) = if k' = k then some v else hmLookup k m := by
  simp only [hmInsert, hmLookup]
  by_cases h : k' = k
  · simp [h]
  · simp only [if_neg h]
    induction m with
    | nil => rfl
    | cons p m ih =>
      by_cases hp : p.1 = k'
      · have hb : (p.1 == k') = true := by simp [hp]
        have hpk : ¬ p.1 = k := by rw [hp]; exact h
        simp [hmLookup, List.filter_cons, hb, hpk, ih]
      · have hb : (p.1 == k') = false := by simp [hp]
        by_cases hk : p.1 = k
        · have hkk : ¬ k = k' := fun hh => h hh.symm
          simp [hmLookup, List.filter_cons, hb, hk, hkk]
        · simp [hmLookup, List.filter_cons, hb, hk, ih]

theorem hmLookup_foldl_insert (rule : List Char) (id : List Char)
    (rules : List (List Char)) (m : List (List Char × List Char)) :
    hmLookup rule (rules.foldl (fun acc r => hmInsert r id acc) m) =
      if rule ∈ rules then some id else hmLookup rule m := by
  induction rules generalizing m with
  | nil => simp
  | cons r rs ih =>
    rw [List.foldl_cons, ih]
    by_cases hmem : rule ∈ rs
    · simp [hmem]
    · by_cases hr : r = rule
      · simp [hmem, hr, hmLookup_insert]
      · have hr' : ¬ rule = r := fun hh => hr hh.symm
        simp [hmem, hr, hr', hmLookup_insert]

theorem register_grammar_owner (reg : ExtensionRegistry) (e : GrammarExt)
    (rule : List Char) :
    hmLookup rule (register_grammar reg e).ruleToParser =
      if rule ∈ e.statement_rules then some e.extension_id
      else hmLookup rule reg.ruleToParser := by
  unfold register_grammar
  exact hmLookup_foldl_insert rule e.extension_id e.statement_rules reg.ruleToParser

/-- C7 (amended): in the registry the rule-name → owner map is last-writer-wins
— after any registration sequence, a rule name resolves to (at most) one owning
extension id, namely that of the most recently registered extension declaring
it; a colliding registration silently replaces the previous owner instead of
reporting a conflict (duplicates are only surfaced later by `compose` as
`DuplicateRule` when both rule texts define the rule). `findParser` resolves a
rule name through the current owner, and returns none whenever no registered
extension owns the name. -/
theorem registry_owner_last_writer (es : List GrammarExt) (rule : List Char) :
    hmLookup rule (registerAll emptyRegistry es).ruleToParser = ownerSpec es rule ∧
    (ownerSpec es rule = none → findParser (registerAll emptyRegistry es) rule = none) := by
  have hmain : ∀ es : List GrammarExt,
      hmLookup rule (registerAll emptyRegistry es).ruleToParser = ownerSpec es rule := by
    intro es
    induction es using List.reverseRecOn with
    | nil => rfl
    | append_singleton es e ih =>
      rw [registerAll, List.foldl_append, List.foldl_cons, List.foldl_nil]
      rw [show es.foldl register_grammar emptyRegistry = registerAll emptyRegistry es from rfl]
      rw [register_grammar_owner, ownerSpec, List.reverse_append]
      simp only [List.reverse_singleton, List.singleton_append, List.find?_cons]
      by_cases hd : rule ∈ e.statement_rules
      · simp [hd]
      · simp [hd, ih, ownerSpec]
  refine ⟨hmain es, ?_⟩
  intro hnone
  unfold findParser
  rw [hmain es, hnone]

/-- Witness for C7 (amended): an empty registration sequence owns nothing, so
`findParser` returns none for `x_stmt`. -/
theorem registry_owner_last_writer_witness :
    hmLookup (txt "x_stmt") (registerAll emptyRegistry []).ruleToParser =
      ownerSpec [] (txt "x_stmt") ∧
    (ownerSpec [] (txt "x_stmt") = none →
      findParser (registerAll emptyRegistry []) (txt "x_stmt") = none) :=
  registry_owner_last_writer [] (txt "x_stmt")

/-- Counterexample for C7: after registering `extXA` (owner of `x_stmt`) the
colliding registration of `extXB` succeeds — `register_grammar` is total, no
conflict is reported — and the `rule_to_parser` entry for `x_stmt` now names
`ext_b`: the previous owner was silently replaced, contradicting the claim that
a colliding registration is treated as a conflict rather than an overwrite. -/
theorem register_grammar_overwrites_cex :
    hmLookup (txt "x_stmt") (register_grammar emptyRegistry extXA).ruleToParser =
      some (txt "ext_a") ∧
    hmLookup (txt "x_stmt")
      (register_grammar (register_grammar emptyRegistry extXA) extXB).ruleToParser =
      some (txt "ext_b") ∧
    txt "ext_b" ≠ txt "ext_a" := by decide

/-- Counterexample for C2: for the registry holding exactly `testExtension`
(whose `statement_rules()` is `["timeout_stmt"]` and whose rule text defines
`timeout_stmt`), `compose` succeeds but `timeout_stmt` is **not** spliced into
the `annotated_stmt` alternation — no line of the output mentions both — it is
only appended at the end: `extract_extension_statements` recognises a statement
rule only by a line ending `_stmt = {`, which a single-line definition never
produces. -/
theorem compose_single_line_rule_not_spliced_cex :
    compose mBase [testExtension] = .ok composedSingle ∧
    (linesL composedSingle).all
      (fun l => !(containsSub (txt "annotated_stmt") l &&
        containsSub (txt "timeout_stmt") l)) = true ∧
    containsSub (txt "timeout_stmt") composedSingle = true := by
  refine ⟨by decide, by decide, by decide⟩

/-- C2 (amended): for the registry holding exactly one extension with
`statement_rules() == ["timeout_stmt"]` whose rule text opens the definition of
`timeout_stmt` on a line ending `_stmt = {` (multi-line style), `compose`
succeeds, `timeout_stmt` is spliced as an alternative inside the base grammar's
`annotated_stmt` alternation, and the extension's literal rule body occurs
exactly once in the output. -/
theorem compose_multi_line_rule_spliced :
    compose mBase [testExtensionML] = .ok composedML ∧
    containsSub (txt "(send_stmt | broadcast_stmt | timeout_stmt)") composedML = true ∧
    countSub testExtensionML.grammar_rules composedML = 1 := by
  refine ⟨by decide, by decide, by decide⟩

/-! ## C9: duplicate-name and brace checks of the composed grammar -/

theorem firstDupAux_none (seen l : List (List Char))
    (h : firstDupAux seen l = none) :
    l.Nodup ∧ ∀ x ∈ l, x ∉ seen := by
  induction l generalizing seen with
  | nil => exact ⟨List.nodup_nil, by intro x hx; cases hx⟩
  | cons n ns ih =>
    rw [firstDupAux] at h
    by_cases hc : seen.contains n = true
    · rw [if_pos hc] at h; cases h
    · rw [if_neg hc] at h
      rcases ih (n :: seen) h with ⟨hnd, hnotin⟩
      have hn_ns : n ∉ ns := by
        intro hmem
        exact hnotin n hmem (List.mem_cons_self n seen)
      have hn_seen : n ∉ seen := by
        intro hmem
        exact hc (List.elem_eq_true_of_mem hmem)
      refine ⟨List.nodup_cons.mpr ⟨hn_ns, hnd⟩, ?_⟩
      intro x hx
      rcases List.mem_cons.mp hx with rfl | hmem
      · exact hn_seen
      · intro hxs
        exact hnotin x hmem (List.mem_cons_of_mem n hxs)

theorem firstDupAux_of_nodup (seen l : List (List Char)) (hnd : l.Nodup)
    (hdisj : ∀ x ∈ l, x ∉ seen) :
    firstDupAux seen l = none := by
  induction l generalizing seen with
  | nil => rfl
  | cons n ns ih =>
    rcases List.nodup_cons.mp hnd with ⟨hn_ns, hnd'⟩
    have hc : seen.contains n = false := by
      cases hcv : seen.contains n
      · rfl
      · exact absurd (List.mem_of_elem_eq_true hcv)
          (hdisj n (List.mem_cons_self n ns))
    rw [firstDupAux, if_neg (by intro hct; rw [hc] at hct; cases hct)]
    refine ih (n :: seen) hnd' ?_
    intro x hx hxmem
    rcases List.mem_cons.mp hxmem with rfl | hxs
    · exact hn_ns hx
    · exact hdisj x (List.mem_cons_of_mem n hx) hxs

theorem firstDupAux_some_mem (seen l : List (List Char)) (n : List Char)
    (h : firstDupAux seen l = some n) : n ∈ l := by
  induction l generalizing seen with
  | nil => cases h
  | cons m ms ih =>
    rw [firstDupAux] at h
    by_cases hc : seen.contains m = true
    · rw [if_pos hc] at h
      injection h with h'
      subst h'
      exact List.mem_cons_self _ _
    · rw [if_neg hc] at h
      exact List.mem_cons_of_mem m (ih (m :: seen) h)

theorem firstDupAux_some_count (seen l : List (List Char)) (n : List Char)
    (h : firstDupAux seen l = some n) :
    n ∈ seen ∨ 2 ≤ l.count n := by
  induction l generalizing seen with
  | nil => cases h
  | cons m ms ih =>
    rw [firstDupAux] at h
    by_cases hc : seen.contains m = true
    · rw [if_pos hc] at h
      injection h with h'
      subst h'
      exact Or.inl (List.mem_of_elem_eq_true hc)
    · rw [if_neg hc] at h
      rcases ih (m :: seen) h with hin | hcount
      · rcases List.mem_cons.mp hin with rfl | hseen
        · right
          have hmem : n ∈ ms := firstDupAux_some_mem (n :: seen) ms n h
          have h1 : 0 < ms.count n := List.count_pos_iff.mpr hmem
          have h2 : (n :: ms).count n = ms.count n + 1 := by
            rw [List.count_cons]; simp
          omega
        · exact Or.inl hseen
      · right
        rw [List.count_cons]
        omega

/-- Unfolding of `compose` on the modelled base grammar once the extension
rules are non-trivial and injection succeeds: only the final re-validation of
the composed text remains. -/
theorem compose_with_inject (order : List GrammarExt) (T : List Char)
    (hne : (trimL (compose_grammar order [])).isEmpty = false)
    (hinj : inject_extension_rules mBase (compose_grammar order []) = .ok T) :
    compose mBase order =
      (validate_composed_grammar T >>= fun _ => pure T) := by
  unfold compose
  rw [show validate_base_grammar mBase = .ok () from by decide, exbind_ok]
  show (if (!(trimL (compose_grammar order [])).isEmpty) = true then
      (inject_extension_rules mBase (compose_grammar order []) >>= fun composed =>
        validate_composed_grammar composed >>= fun _ => pure composed)
    else (pure mBase >>= fun composed =>
        validate_composed_grammar composed >>= fun _ => pure composed)) = _
  have hcond : (!(trimL (compose_grammar order [])).isEmpty) = true := by
    rw [hne]; rfl
  rw [if_pos hcond, hinj, exbind_ok]

/-- C9: once the composed text `T` (base grammar plus injected extension rules)
is free of duplicate rule names, `compose` fails with `SyntaxError` exactly
when `T`'s opening- and closing-brace counts differ, and otherwise this final
re-validation passes and `compose` returns `T`. (The duplicate check runs
before the brace check, which is why the no-duplicates hypothesis — spelled out
in the claim's second clause — is needed for the `SyntaxError` outcome.) -/
theorem compose_brace_balance (order : List GrammarExt) (T : List Char)
    (hne : (trimL (compose_grammar order [])).isEmpty = false)
    (hinj : inject_extension_rules mBase (compose_grammar order []) = .ok T)
    (hnodup : (ruleNamesOf T).Nodup) :
    (T.count '\x7b' ≠ T.count '\x7d' →
      compose mBase order =
        .error (.SyntaxError (txt "Unbalanced braces in composed grammar"))) ∧
    (T.count '\x7b' = T.count '\x7d' → compose mBase order = .ok T) := by
  have hc := compose_with_inject order T hne hinj
  have hfd : firstDupAux [] (ruleNamesOf T) = none :=
    firstDupAux_of_nodup [] (ruleNamesOf T) hnodup (by intro x _ hx; cases hx)
  constructor
  · intro hbr
    rw [hc]
    unfold validate_composed_grammar
    rw [hfd]
    rw [if_pos hbr]
    rfl
  · intro hbr
    rw [hc]
    unfold validate_composed_grammar
    rw [hfd]
    rw [if_neg (by rw [hbr]; exact fun hh => hh rfl)]
    rfl

/-- Witness for C9: the registry holding `extUnbal` composes to a text with
six `{` and five `}`, so `compose` reports the unbalanced-brace `SyntaxError`. -/
theorem compose_brace_balance_witness :
    compose mBase [extUnbal] =
      .error (.SyntaxError (txt "Unbalanced braces in composed grammar")) :=
  (compose_brace_balance [extUnbal] composedUnbal
    (by decide) (by decide) (by decide)).1 (by decide)

theorem splitNl_ne_nil (s : List Char) : splitNl s ≠ [] := by
  cases s with
  | nil => simp [splitNl]
  | cons c cs =>
    rw [splitNl]
    by_cases h : c = '\n'
    · simp [h]
    · rw [if_neg h]
      cases hcs : splitNl cs <;> simp

theorem splitNl_append_nl (a b : List Char) :
    splitNl (a ++ '\n' :: b) = splitNl a ++ splitNl b := by
  induction a with
  | nil => simp [splitNl]
  | cons c a ih =>
    by_cases h : c = '\n'
    · subst h
      show splitNl ('\n' :: (a ++ '\n' :: b)) = splitNl ('\n' :: a) ++ splitNl b
      rw [splitNl, if_pos rfl, splitNl, if_pos rfl, ih]
      rfl
    · show splitNl (c :: (a ++ '\n' :: b)) = splitNl (c :: a) ++ splitNl b
      rw [splitNl, if_neg h, splitNl, if_neg h, ih]
      cases ha : splitNl a with
      | nil => exact absurd ha (splitNl_ne_nil a)
      | cons h0 t0 => rfl

theorem splitNl_no_nl (s : List Char) : ∀ line ∈ splitNl s, '\n' ∉ line := by
  induction s with
  | nil =>
    intro line hl
    rw [splitNl] at hl
    rcases List.mem_singleton.mp hl with rfl
    simp
  | cons c cs ih =>
    intro line hl
    rw [splitNl] at hl
    by_cases h : c = '\n'
    · rw [if_pos h] at hl
      rcases List.mem_cons.mp hl with rfl | hmem
      · simp
      · exact ih line hmem
    · rw [if_neg h] at hl
      cases hcs : splitNl cs with
      | nil => exact absurd hcs (splitNl_ne_nil cs)
      | cons h0 t0 =>
        rw [hcs] at hl
        rcases List.mem_cons.mp hl with rfl | hmem
        · intro hmem'
          rcases List.mem_cons.mp hmem' with heq | hmem''
          · exact h heq.symm
          · exact ih h0 (hcs ▸ List.mem_cons_self h0 t0) hmem''
        · exact ih line (hcs ▸ List.mem_cons_of_mem h0 hmem)

theorem splitNl_singleton (s : List Char) (h : '\n' ∉ s) : splitNl s = [s] := by
  induction s with
  | nil => rfl
  | cons c cs ih =>
    have hc : ¬ c = '\n' := fun hh => h (hh ▸ List.mem_cons_self c cs)
    rw [splitNl, if_neg hc, ih (fun hm => h (List.mem_cons_of_mem c hm))]

theorem splitNl_subset (s : List Char) : ∀ line ∈ splitNl s, line ⊆ s := by
  induction s with
  | nil =>
    intro line hl
    rcases List.mem_singleton.mp hl with rfl
    exact List.Subset.refl _
  | cons c cs ih =>
    intro line hl
    rw [splitNl] at hl
    by_cases h : c = '\n'
    · rw [if_pos h] at hl
      rcases List.mem_cons.mp hl with rfl | hmem
      · intro x hx; cases hx
      · exact (ih line hmem).trans (List.subset_cons_of_subset c (List.Subset.refl cs))
    · rw [if_neg h] at hl
      cases hcs : splitNl cs with
      | nil => exact absurd hcs (splitNl_ne_nil cs)
      | cons h0 t0 =>
        rw [hcs] at hl
        rcases List.mem_cons.mp hl with rfl | hmem
        · intro x hx
          rcases List.mem_cons.mp hx with rfl | hmem'
          · exact List.mem_cons_self _ _
          · exact List.mem_cons_of_mem c
              (ih h0 (hcs ▸ List.mem_cons_self h0 t0) hmem')
        · exact (ih line (hcs ▸ List.mem_cons_of_mem h0 hmem)).trans
            (List.subset_cons_of_subset c (List.Subset.refl cs))

theorem ruleNameOfLine_nil : ruleNameOfLine [] = none := by decide

theorem filterMap_dropLastEmpty (l : List (List Char)) :
    (dropLastEmpty l).filterMap ruleNameOfLine = l.filterMap ruleNameOfLine := by
  unfold dropLastEmpty
  split
  · rename_i heq
    have hne : l ≠ [] := by
      intro hnil
      rw [hnil] at heq
      cases heq
    have hl : l.dropLast ++ [l.getLast hne] = l := List.dropLast_append_getLast hne
    have hlast : l.getLast hne = [] := by
      have := List.getLast?_eq_getLast l hne
      rw [heq] at this
      injection this with h'
      exact h'.symm
    conv_rhs => rw [← hl]
    rw [List.filterMap_append, hlast]
    simp [ruleNameOfLine_nil]
  · rfl

theorem ruleNamesOf_eq_namesOfFull (s : List Char) :
    ruleNamesOf s = namesOfFull s := by
  unfold ruleNamesOf namesOfFull linesL
  exact filterMap_dropLastEmpty (splitNl s)

theorem namesOfFull_append_nl (a b : List Char) :
    namesOfFull (a ++ '\n' :: b) = namesOfFull a ++ namesOfFull b := by
  unfold namesOfFull
  rw [splitNl_append_nl, List.filterMap_append]

theorem startsWithL_iff (p s : List Char) :
    startsWithL p s = true ↔ ∃ v, s = p ++ v := by
  induction p generalizing s with
  | nil => simp [startsWithL]
  | cons c ps ih =>
    cases s with
    | nil =>
      simp only [startsWithL]
      constructor
      · intro h; cases h
      · rintro ⟨v, hv⟩; cases hv
    | cons d ds =>
      rw [startsWithL]
      constructor
      · intro h
        rcases Bool.and_eq_true_iff.mp h with ⟨h1, h2⟩
        have hcd : c = d := of_decide_eq_true h1
        rcases (ih ds).mp h2 with ⟨v, hv⟩
        exact ⟨v, by rw [hcd, hv]; rfl⟩
      · rintro ⟨v, hv⟩
        injection hv with h1 h2
        refine Bool.and_eq_true_iff.mpr ⟨decide_eq_true h1.symm, (ih ds).mpr ⟨v, h2⟩⟩

theorem containsSub_iff (p s : List Char) :
    containsSub p s = true ↔ ∃ u v, s = u ++ (p ++ v) := by
  induction s with
  | nil =>
    rw [containsSub, startsWithL_iff]
    constructor
    · rintro ⟨v, hv⟩; exact ⟨[], v, hv⟩
    · rintro ⟨u, v, huv⟩
      cases u with
      | nil => exact ⟨v, huv⟩
      | cons x xs => cases huv
  | cons c cs ih =>
    rw [containsSub, Bool.or_eq_true, startsWithL_iff, ih]
    constructor
    · rintro (⟨v, hv⟩ | ⟨u, v, huv⟩)
      · exact ⟨[], v, hv⟩
      · exact ⟨c :: u, v, by rw [huv]; rfl⟩
    · rintro ⟨u, v, huv⟩
      cases u with
      | nil => exact Or.inl ⟨v, huv⟩
      | cons x xs =>
        injection huv with h1 h2
        exact Or.inr ⟨xs, v, h2⟩

theorem containsSub_append_left (p a b : List Char) (h : containsSub p a = true) :
    containsSub p (a ++ b) = true := by
  rcases (containsSub_iff p a).mp h with ⟨u, v, huv⟩
  exact (containsSub_iff p (a ++ b)).mpr ⟨u, v ++ b, by rw [huv]; simp [List.append_assoc]⟩

theorem startsWithL_extend (p s y : List Char) (h : startsWithL p s = true) :
    startsWithL p (s ++ y) = true := by
  rcases (startsWithL_iff p s).mp h with ⟨v, hv⟩
  exact (startsWithL_iff p (s ++ y)).mpr ⟨v ++ y, by rw [hv]; simp [List.append_assoc]⟩

theorem startsWithL_false_extend (p s y : List Char) (h : startsWithL p s = false)
    (hlen : p.length ≤ s.length) : startsWithL p (s ++ y) = false := by
  induction p generalizing s with
  | nil => cases h
  | cons c ps ih =>
    cases s with
    | nil => simp at hlen
    | cons d ds =>
      rw [List.cons_append, startsWithL]
      rw [startsWithL] at h
      rcases Bool.and_eq_false_iff.mp h with h1 | h2
      · rw [h1]
        rfl
      · rw [ih ds h2 (by simpa using hlen)]
        simp

theorem findSub_append (p x y : List Char) (i : Nat)
    (h : findSub p x = some i) (hfit : i + p.length ≤ x.length) :
    findSub p (x ++ y) = some i := by
  induction x generalizing i with
  | nil =>
    rw [findSub] at h
    by_cases hs : startsWithL p [] = true
    · rw [if_pos hs] at h
      injection h with h'
      subst h'
      have hp : p = [] := by
        rcases (startsWithL_iff p []).mp hs with ⟨v, hv⟩
        cases p with
        | nil => rfl
        | cons c cs => cases hv
      subst hp
      cases y with
      | nil => rfl
      | cons d ds => simp [findSub, startsWithL]
    · rw [if_neg hs] at h
      cases h
  | cons c cs ih =>
    rw [findSub] at h
    by_cases hs : startsWithL p (c :: cs) = true
    · rw [if_pos hs] at h
      injection h with h'
      subst h'
      have hsw : startsWithL p (c :: (cs ++ y)) = true := by
        have := startsWithL_extend p (c :: cs) y hs
        simpa using this
      rw [List.cons_append, findSub, if_pos hsw]
    · rw [if_neg hs] at h
      cases hrec : findSub p cs with
      | none => rw [hrec] at h; cases h
      | some j =>
        rw [hrec] at h
        injection h with h'
        subst h'
        have hfit' : j + p.length ≤ cs.length := by
          simp only [List.length_cons] at hfit
          omega
        have hplen : p.length ≤ cs.length + 1 := by omega
        have hsf : startsWithL p (c :: cs) = false := by
          cases hb : startsWithL p (c :: cs)
          · rfl
          · exact absurd hb hs
        have hF : startsWithL p (c :: (cs ++ y)) = false := by
          have := startsWithL_false_extend p (c :: cs) y hsf (by simpa using hplen)
          simpa using this
        rw [List.cons_append, findSub, if_neg (by simp [hF]), ih j hrec hfit']
        rfl

theorem trimL_sandwich (c d : Char) (m : List Char)
    (hc : isWsChar c = false) (hd : isWsChar d = false) :
    trimL (c :: (m ++ [d])) = c :: (m ++ [d]) := by
  unfold trimL
  rw [List.dropWhile_cons, hc]
  simp only [Bool.false_eq_true, if_false]
  have hrev : (c :: (m ++ [d])).reverse = d :: (m.reverse ++ [c]) := by
    simp
  rw [hrev, List.dropWhile_cons, hd]
  simp

theorem joinSep_no_nl (sep : List Char) (xs : List (List Char))
    (hsep : '\n' ∉ sep) (h : ∀ x ∈ xs, '\n' ∉ x) : '\n' ∉ joinSep sep xs := by
  induction xs with
  | nil => simp [joinSep]
  | cons x ys ih =>
    cases ys with
    | nil =>
      rw [joinSep]
      exact h x (List.mem_cons_self x [])
    | cons y zs =>
      rw [joinSep]
      intro hmem
      rcases List.mem_append.mp hmem with hmem' | hmem'
      · rcases List.mem_append.mp hmem' with hx | hsep'
        · exact h x (List.mem_cons_self _ _) hx
        · exact hsep hsep'
      · exact ih (fun z hz => h z (List.mem_cons_of_mem x hz)) hmem'

theorem trimL_subset (s : List Char) : trimL s ⊆ s := by
  unfold trimL
  intro x hx
  have h1 : x ∈ (s.dropWhile isWsChar).reverse.dropWhile isWsChar := by
    simpa using hx
  have h2 : x ∈ (s.dropWhile isWsChar).reverse := (List.dropWhile_sublist _).subset h1
  have h3 : x ∈ s.dropWhile isWsChar := by simpa using h2
  exact (List.dropWhile_sublist _).subset h3

theorem takeUntilSub_subset (p s : List Char) : takeUntilSub p s ⊆ s := by
  unfold takeUntilSub
  cases h : findSub p s with
  | none => exact List.Subset.refl s
  | some i => exact (List.take_sublist i s).subset

theorem extract_no_nl (ext : List Char) :
    ∀ st ∈ extract_extension_statements ext, '\n' ∉ st := by
  intro st hst hmem
  unfold extract_extension_statements at hst
  rcases List.mem_filterMap.mp hst with ⟨line, hline, hf⟩
  have hline' : line ∈ splitNl ext := by
    unfold linesL dropLastEmpty at hline
    revert hline
    split
    · intro hline
      exact (List.dropLast_sublist (splitNl ext)).subset hline
    · intro hline
      exact hline
  have hnl : '\n' ∉ line := splitNl_no_nl ext line hline'
  have hf' : (if (containsSub (txt "=") (trimL line) &&
      endsWithL (txt "_stmt = \x7b") (trimL line)) = true then
      some (trimL (takeUntilSub (txt "=") (trimL line))) else none) = some st := hf
  by_cases hcond : (containsSub (txt "=") (trimL line) &&
      endsWithL (txt "_stmt = \x7b") (trimL line)) = true
  · rw [if_pos hcond] at hf'
    injection hf' with hf''
    apply hnl
    subst hf''
    exact (trimL_subset _) ((takeUntilSub_subset _ _) ((trimL_subset _) hmem))
  · rw [if_neg hcond] at hf'
    cases hf'

/-- The name-extraction result for the spliced `annotated_stmt` line: whatever
newline-free alternation text is spliced in before the closing parenthesis, the
line still contributes exactly the rule name `annotated_stmt`. -/
theorem namesOfFull_line2 (js : List Char) (hnl : '\n' ∉ js) :
    namesOfFull (txt "annotated_stmt = \x7b annotation* ~ (send_stmt | broadcast_stmt" ++
      (txt " | " ++ js ++ txt ") \x7d")) = [txt "annotated_stmt"] := by
  have hnlL : '\n' ∉ (txt "annotated_stmt = \x7b annotation* ~ (send_stmt | broadcast_stmt" ++
      (txt " | " ++ js ++ txt ") \x7d")) := by
    intro hm
    rcases List.mem_append.mp hm with h1 | h1
    · revert h1; decide
    · rcases List.mem_append.mp h1 with h2 | h2
      · rcases List.mem_append.mp h2 with h3 | h3
        · revert h3; decide
        · exact hnl h3
      · revert h2; decide
  have hshape2 : txt "annotated_stmt = \x7b annotation* ~ (send_stmt | broadcast_stmt" ++
      (txt " | " ++ js ++ txt ") \x7d") =
      'a' :: ((txt "nnotated_stmt = \x7b annotation* ~ (send_stmt | broadcast_stmt" ++
        txt " | " ++ js ++ txt ") ") ++ ['\x7d']) := by
    rw [show txt "annotated_stmt = \x7b annotation* ~ (send_stmt | broadcast_stmt" =
      'a' :: txt "nnotated_stmt = \x7b annotation* ~ (send_stmt | broadcast_stmt" from by decide,
      show txt ") \x7d" = txt ") " ++ ['\x7d'] from by decide]
    simp [List.append_assoc]
  have htrim : trimL (txt "annotated_stmt = \x7b annotation* ~ (send_stmt | broadcast_stmt" ++
      (txt " | " ++ js ++ txt ") \x7d")) =
      txt "annotated_stmt = \x7b annotation* ~ (send_stmt | broadcast_stmt" ++
      (txt " | " ++ js ++ txt ") \x7d") := by
    rw [hshape2]
    exact trimL_sandwich 'a' '\x7d' _ (by decide) (by decide)
  have hB : containsSub (txt " = \x7b")
      (txt "annotated_stmt = \x7b annotation* ~ (send_stmt | broadcast_stmt" ++
        (txt " | " ++ js ++ txt ") \x7d")) = true :=
    containsSub_append_left _ _ _ (by decide)
  have hC : startsWithL (txt "//")
      (txt "annotated_stmt = \x7b annotation* ~ (send_stmt | broadcast_stmt" ++
        (txt " | " ++ js ++ txt ") \x7d")) = false := by
    rw [hshape2, show txt "//" = '/' :: ['/'] from by decide, startsWithL]
    simp
  have hD : findSub (txt " = \x7b")
      (txt "annotated_stmt = \x7b annotation* ~ (send_stmt | broadcast_stmt" ++
        (txt " | " ++ js ++ txt ") \x7d")) = some 14 :=
    findSub_append _ _ _ 14 (by decide) (by decide)
  have hE : (txt "annotated_stmt = \x7b annotation* ~ (send_stmt | broadcast_stmt" ++
      (txt " | " ++ js ++ txt ") \x7d")).take 14 = txt "annotated_stmt" := by
    rw [List.take_append_of_le_length (by decide)]
    decide
  have hf : ruleNameOfLine
      (txt "annotated_stmt = \x7b annotation* ~ (send_stmt | broadcast_stmt" ++
        (txt " | " ++ js ++ txt ") \x7d")) = some (txt "annotated_stmt") := by
    show (if (containsSub (txt " = \x7b") (trimL _) && !startsWithL (txt "//") (trimL _)) = true
      then some (trimL (takeUntilSub (txt " = \x7b") (trimL _))) else none) = _
    rw [htrim]
    rw [if_pos (by rw [hB, hC]; rfl)]
    rw [show takeUntilSub (txt " = \x7b")
        (txt "annotated_stmt = \x7b annotation* ~ (send_stmt | broadcast_stmt" ++
          (txt " | " ++ js ++ txt ") \x7d")) = txt "annotated_stmt" from by
      unfold takeUntilSub
      rw [hD]
      exact hE]
    rw [show trimL (txt "annotated_stmt") = txt "annotated_stmt" from by decide]
  unfold namesOfFull
  rw [splitNl_singleton _ hnlL]
  rw [List.filterMap_cons, hf]
  rfl

theorem inject_mBase_eq (ext : List Char) :
    inject_extension_rules mBase ext = .ok (spliceResult ext) := by
  rfl

theorem namesOfFull_spliceBase (ext : List Char) :
    namesOfFull (spliceBase ext) = mBaseNames := by
  unfold spliceBase
  by_cases hemp : (extract_extension_statements ext).isEmpty = true
  · rw [if_pos hemp]
    decide
  · rw [if_neg hemp]
    have hshape : mBase.take 90 ++ txt " | " ++
        joinSep (txt " | ") (extract_extension_statements ext) ++ mBase.drop 90 =
        txt "choreography = \x7b statement* \x7d" ++ '\n' ::
          ((txt "annotated_stmt = \x7b annotation* ~ (send_stmt | broadcast_stmt" ++
            (txt " | " ++ joinSep (txt " | ") (extract_extension_statements ext) ++
              txt ") \x7d")) ++ '\n' ::
            txt "send_stmt = \x7b role ~ \"->\" ~ role ~ \":\" ~ message \x7d\nbroadcast_stmt = \x7b role ~ \"=>\" ~ \"all\" ~ \":\" ~ message \x7d\nannotation = \x7b \"#\" ~ name \x7d") := by
      rw [show mBase.take 90 = txt "choreography = \x7b statement* \x7d" ++ '\n' ::
          txt "annotated_stmt = \x7b annotation* ~ (send_stmt | broadcast_stmt"
          from by decide,
        show mBase.drop 90 = txt ") \x7d" ++ '\n' ::
          txt "send_stmt = \x7b role ~ \"->\" ~ role ~ \":\" ~ message \x7d\nbroadcast_stmt = \x7b role ~ \"=>\" ~ \"all\" ~ \":\" ~ message \x7d\nannotation = \x7b \"#\" ~ name \x7d"
          from by decide]
      simp [List.append_assoc]
    rw [hshape, namesOfFull_append_nl, namesOfFull_append_nl]
    rw [namesOfFull_line2 (joinSep (txt " | ") (extract_extension_statements ext))
      (joinSep_no_nl _ _ (by decide) (extract_no_nl ext))]
    rw [show namesOfFull (txt "choreography = \x7b statement* \x7d") =
      [txt "choreography"] from by decide]
    rw [show namesOfFull
        (txt "send_stmt = \x7b role ~ \"->\" ~ role ~ \":\" ~ message \x7d\nbroadcast_stmt = \x7b role ~ \"=>\" ~ \"all\" ~ \":\" ~ message \x7d\nannotation = \x7b \"#\" ~ name \x7d") =
      [txt "send_stmt", txt "broadcast_stmt", txt "annotation"] from by decide]
    decide

theorem ruleNamesOf_spliceResult (ext : List Char) :
    ruleNamesOf (spliceResult ext) = mBaseNames ++ namesOfFull ext := by
  rw [ruleNamesOf_eq_namesOfFull]
  have hshape : spliceResult ext =
      spliceBase ext ++ '\n' :: (txt "// Extension Rules" ++ '\n' :: ext) := by
    unfold spliceResult
    rw [show txt "// Extension Rules\n" = txt "// Extension Rules" ++ ['\n'] from by decide]
    simp [List.append_assoc]
  rw [hshape, namesOfFull_append_nl, namesOfFull_append_nl, namesOfFull_spliceBase]
  rw [show namesOfFull (txt "// Extension Rules") = [] from by decide]
  rfl

theorem namesOfFull_append_joinRules (x : List Char) (l : List GrammarExt) :
    namesOfFull (x ++ joinRules l) =
      namesOfFull x ++ (l.map (fun e => namesOfFull e.grammar_rules)).flatten := by
  induction l generalizing x with
  | nil => simp [joinRules]
  | cons e l ih =>
    have h1 : x ++ joinRules (e :: l) = x ++ '\n' :: (e.grammar_rules ++ joinRules l) := by
      unfold joinRules
      simp [List.append_assoc]
    rw [h1, namesOfFull_append_nl, ih e.grammar_rules]
    simp [List.append_assoc]

theorem namesOfFull_joinRules (l : List GrammarExt) :
    namesOfFull (joinRules l) = (l.map (fun e => namesOfFull e.grammar_rules)).flatten := by
  have h := namesOfFull_append_joinRules [] l
  rw [List.nil_append] at h
  rw [h, show namesOfFull ([] : List Char) = [] from by decide, List.nil_append]

theorem mem_dropWhile_of_not_ws (c : Char) (hc : isWsChar c = false) :
    ∀ t : List Char, c ∈ t → c ∈ t.dropWhile isWsChar := by
  intro t ht
  induction t with
  | nil => cases ht
  | cons x xs ih =>
    rw [List.dropWhile_cons]
    by_cases hx : isWsChar x = true
    · rw [hx]
      simp only [if_true]
      rcases List.mem_cons.mp ht with rfl | hmem
      · rw [hc] at hx; cases hx
      · exact ih hmem
    · rw [if_neg hx]
      exact ht

theorem mem_trimL_of_not_ws (c : Char) (s : List Char)
    (hc : isWsChar c = false) (h : c ∈ s) : c ∈ trimL s := by
  unfold trimL
  have h2 := mem_dropWhile_of_not_ws c hc s h
  have h3 : c ∈ (s.dropWhile isWsChar).reverse := List.mem_reverse.mpr h2
  have h4 := mem_dropWhile_of_not_ws c hc _ h3
  exact List.mem_reverse.mpr h4

theorem brace_mem_of_name (A : GrammarExt) (r : List Char)
    (hrA : r ∈ namesOfFull A.grammar_rules) : '\x7b' ∈ A.grammar_rules := by
  rcases List.mem_filterMap.mp hrA with ⟨line, hline, hf⟩
  have hf' : (if (containsSub (txt " = \x7b") (trimL line) &&
      !startsWithL (txt "//") (trimL line)) = true then
      some (trimL (takeUntilSub (txt " = \x7b") (trimL line))) else none) = some r := hf
  by_cases hcond : (containsSub (txt " = \x7b") (trimL line) &&
      !startsWithL (txt "//") (trimL line)) = true
  · have hcont : containsSub (txt " = \x7b") (trimL line) = true :=
      (Bool.and_eq_true_iff.mp hcond).1
    rcases (containsSub_iff _ _).mp hcont with ⟨u, v, huv⟩
    have hbr : '\x7b' ∈ trimL line := by
      rw [huv]
      exact List.mem_append.mpr (Or.inr (List.mem_append.mpr (Or.inl (by decide))))
    exact (splitNl_subset _ line hline) ((trimL_subset line) hbr)
  · rw [if_neg hcond] at hf'
    cases hf'

theorem brace_mem_joinRules (l : List GrammarExt) (A : GrammarExt)
    (hA : A ∈ l) (hbr : '\x7b' ∈ A.grammar_rules) : '\x7b' ∈ joinRules l := by
  unfold joinRules
  refine List.mem_flatten.mpr ⟨'\n' :: A.grammar_rules, ?_, List.mem_cons_of_mem _ hbr⟩
  exact List.mem_map.mpr ⟨A, hA, rfl⟩

theorem two_mem_perm (A B : GrammarExt) (order : List GrammarExt)
    (hA : A ∈ order) (hB : B ∈ order) (hAB : A ≠ B) :
    ∃ rest, List.Perm order (A :: B :: rest) := by
  rcases List.append_of_mem hA with ⟨u, v, rfl⟩
  have hB' : B ∈ u ++ v := by
    rcases List.mem_append.mp hB with h | h
    · exact List.mem_append.mpr (Or.inl h)
    · rcases List.mem_cons.mp h with heq | h
      · exact absurd heq.symm hAB
      · exact List.mem_append.mpr (Or.inr h)
  rcases List.append_of_mem hB' with ⟨p, q, hpq⟩
  refine ⟨p ++ q, ?_⟩
  refine List.perm_middle.trans (List.Perm.cons A ?_)
  rw [hpq]
  exact List.perm_middle

theorem count_perm {α : Type} [BEq α] {l₁ l₂ : List α}
    (h : List.Perm l₁ l₂) (a : α) : l₁.count a = l₂.count a := by
  induction h with
  | nil => rfl
  | cons x _ ih => simp [List.count_cons, ih]
  | swap x y l => simp [List.count_cons]; omega
  | trans _ _ ih1 ih2 => exact ih1.trans ih2

theorem count_le_one_of_nodup {α : Type} [BEq α] [LawfulBEq α]
    (l : List α) (h : l.Nodup) (a : α) : l.count a ≤ 1 := by
  induction l with
  | nil => simp [List.count_nil]
  | cons x xs ih =>
    rcases List.nodup_cons.mp h with ⟨hx, hnd⟩
    rw [List.count_cons]
    by_cases hax : a = x
    · subst hax
      have hzero : xs.count a = 0 := List.count_eq_zero.mpr hx
      simp [hzero]
    · have hb : (x == a) = false := by
        cases hv : (x == a)
        · rfl
        · exact absurd (eq_of_beq hv).symm hax
      rw [hb]
      simpa using ih hnd

/-- C1: whenever two distinct registered extensions both contribute a rule
definition of the same name `r` in their rule text, `compose` fails with
`DuplicateRule r` — whatever order the two were registered in and whatever
iteration order the registry's hash map yields (the `order` parameter), and
with the conflict surfaced only here, at composition time (`register_grammar`
itself cannot fail). The side condition says `r` is the only name defined more
than once across the base grammar and all extension texts, so the first
duplicate the validator meets is `r`. -/
theorem compose_duplicate_rule (order : List GrammarExt) (A B : GrammarExt) (r : List Char)
    (hA : A ∈ order) (hB : B ∈ order) (hAB : A ≠ B)
    (hrA : r ∈ namesOfFull A.grammar_rules) (hrB : r ∈ namesOfFull B.grammar_rules)
    (hclean : ∀ n ∈ mBaseNames ++
        (order.map (fun e => namesOfFull e.grammar_rules)).flatten, n ≠ r →
      (mBaseNames ++ (order.map (fun e => namesOfFull e.grammar_rules)).flatten).count n ≤ 1) :
    compose mBase order = .error (.DuplicateRule r) := by
  have hext : compose_grammar order [] = joinRules (sortByPrioDesc order) := by
    rw [compose_grammar_eq, List.nil_append]
  have hAperm : A ∈ sortByPrioDesc order := (sortByPrioDesc_perm order).mem_iff.mpr hA
  have hbrace : '\x7b' ∈ compose_grammar order [] := by
    rw [hext]
    exact brace_mem_joinRules _ A hAperm (brace_mem_of_name A r hrA)
  have htr : '\x7b' ∈ trimL (compose_grammar order []) :=
    mem_trimL_of_not_ws _ _ (by decide) hbrace
  have hne : (trimL (compose_grammar order [])).isEmpty = false := by
    cases hie : (trimL (compose_grammar order [])).isEmpty
    · rfl
    · rw [List.isEmpty_iff.mp hie] at htr
      cases htr
  have hinj := inject_mBase_eq (compose_grammar order [])
  have hc := compose_with_inject order (spliceResult (compose_grammar order [])) hne hinj
  have hnames : ruleNamesOf (spliceResult (compose_grammar order [])) =
      mBaseNames ++
        ((sortByPrioDesc order).map (fun e => namesOfFull e.grammar_rules)).flatten := by
    rw [ruleNamesOf_spliceResult, hext, namesOfFull_joinRules]
  have hpermL : List.Perm
      (mBaseNames ++
        ((sortByPrioDesc order).map (fun e => namesOfFull e.grammar_rules)).flatten)
      (mBaseNames ++ (order.map (fun e => namesOfFull e.grammar_rules)).flatten) :=
    List.Perm.append_left mBaseNames
      (List.Perm.flatten (List.Perm.map _ (sortByPrioDesc_perm order)))
  rcases two_mem_perm A B order hA hB hAB with ⟨rest, hperm2⟩
  have hcount2 : 2 ≤ ((order.map (fun e => namesOfFull e.grammar_rules)).flatten).count r := by
    have hpf : List.Perm ((order.map (fun e => namesOfFull e.grammar_rules)).flatten)
        (((A :: B :: rest).map (fun e => namesOfFull e.grammar_rules)).flatten) :=
      List.Perm.flatten (List.Perm.map _ hperm2)
    rw [count_perm hpf r]
    rw [List.map_cons, List.map_cons, List.flatten_cons, List.flatten_cons]
    rw [List.count_append, List.count_append]
    have c1 : 0 < (namesOfFull A.grammar_rules).count r := List.count_pos_iff.mpr hrA
    have c2 : 0 < (namesOfFull B.grammar_rules).count r := List.count_pos_iff.mpr hrB
    omega
  have hcount2' : 2 ≤ (mBaseNames ++
      (order.map (fun e => namesOfFull e.grammar_rules)).flatten).count r := by
    rw [List.count_append]
    omega
  obtain ⟨n, hsome⟩ : ∃ n, firstDupAux [] (mBaseNames ++
      ((sortByPrioDesc order).map (fun e => namesOfFull e.grammar_rules)).flatten) = some n := by
    cases hfd : firstDupAux [] (mBaseNames ++
        ((sortByPrioDesc order).map (fun e => namesOfFull e.grammar_rules)).flatten) with
    | some n => exact ⟨n, rfl⟩
    | none =>
      exfalso
      have hnd := (firstDupAux_none [] _ hfd).1
      have hle := count_le_one_of_nodup _ hnd r
      have heq := count_perm hpermL r
      omega
  have hcn : 2 ≤ (mBaseNames ++
      ((sortByPrioDesc order).map (fun e => namesOfFull e.grammar_rules)).flatten).count n := by
    rcases firstDupAux_some_count [] _ n hsome with hmem | h2
    · cases hmem
    · exact h2
  have hnr : n = r := by
    by_contra hne'
    have heqn := count_perm hpermL n
    have hmemn : n ∈ mBaseNames ++
        (order.map (fun e => namesOfFull e.grammar_rules)).flatten := by
      refine List.count_pos_iff.mp ?_
      omega
    have := hclean n hmemn hne'
    omega
  subst hnr
  rw [hc]
  unfold validate_composed_grammar
  rw [hnames, hsome]
  rfl

/-- Witness for C1: both `extDup1` and `extDup2` define `x_stmt`; composition
fails with `DuplicateRule "x_stmt"`. -/
theorem compose_duplicate_rule_witness :
    compose mBase [extDup1, extDup2] = .error (.DuplicateRule (txt "x_stmt")) :=
  compose_duplicate_rule [extDup1, extDup2] extDup1 extDup2 (txt "x_stmt")
    (by decide) (by decide) (by decide) (by decide) (by decide) (by decide)
